import Mathlib

set_option maxHeartbeats 1000000

/-!
Verification development for the bulk test-file rewriter
(source: cli/bulk_fix_chdir.py).

The script applies, in order, to the text of each file:
  rule 1: a multi-line regex collapsing the save/restore working
          directory boilerplate into a WithIsolatedDirectory header,
  rule 2: a global literal replacement of getFreshRootCmd(),
  rules 3a-3c: three global literal replacements qualifying the
          fixed path literal with filepath.Join(workingDir, ...).

Texts are modelled as List Char.  The Python regex for rule 1 is
embedded as an explicit backtracking matcher (greedy, longest
candidate first, exactly the order the re module explores); the
whitespace class models the ASCII part of the Python class.
Rules 2 and 3 have fully escaped patterns, so they are literal
find/replace passes, modelled directly as such.  re.sub scans left
to right and continues after the end of each match; both sub1F and
replAllF below follow that discipline, with a fuel argument equal to
the input length (each match consumes at least one character, so the
fuel is never exhausted; the adequacy lemmas below prove this).
-/

def sl (s : String) : List Char := s.toList

/-- isWs models the ASCII part of the Python regex class backslash-s:
space, tab, newline, carriage return, vertical tab, form feed. -/
def isWs (c : Char) : Bool :=
  (c == ' ') || (c == '\t') || (c == '\n') || (c == '\r') || (c == '\x0B') || (c == '\x0C')

/-- Length of the maximal whitespace prefix (candidates for a greedy ws+). -/
def wsMax : List Char → Nat
  | [] => 0
  | c :: cs => if isWs c then wsMax cs + 1 else 0

/-- Length of the maximal prefix of non-newline characters (candidates for
a greedy dot-star, since dot does not match newline). -/
def dotMax : List Char → Nat
  | [] => 0
  | c :: cs => if c == '\n' then 0 else dotMax cs + 1

def orElseO {α : Type} (x y : Option α) : Option α :=
  match x with
  | some a => some a
  | none => y

/-- Backtracking point for a greedy ws+: try consuming i, i-1, ..., 1
whitespace characters, feeding the remainder to the continuation. -/
def tryWsFrom {α : Type} (cs : List Char) (k : List Char → Option α) : Nat → Option α
  | 0 => none
  | i + 1 => orElseO (k (cs.drop (i + 1))) (tryWsFrom cs k i)

def tryWs {α : Type} (cs : List Char) (k : List Char → Option α) : Option α :=
  tryWsFrom cs k (wsMax cs)

/-- Capturing variant of tryWs: the continuation also receives the
consumed prefix (the captured group). -/
def tryWsCapFrom {α : Type} (cs : List Char) (k : List Char → List Char → Option α) :
    Nat → Option α
  | 0 => none
  | i + 1 => orElseO (k (cs.take (i + 1)) (cs.drop (i + 1))) (tryWsCapFrom cs k i)

def tryWsCap {α : Type} (cs : List Char) (k : List Char → List Char → Option α) : Option α :=
  tryWsCapFrom cs k (wsMax cs)

/-- Backtracking point for a greedy dot-star: try consuming i, ..., 1, 0
non-newline characters. -/
def tryDotFrom {α : Type} (cs : List Char) (k : List Char → Option α) : Nat → Option α
  | 0 => k cs
  | i + 1 => orElseO (k (cs.drop (i + 1))) (tryDotFrom cs k i)

def tryDotStar {α : Type} (cs : List Char) (k : List Char → Option α) : Option α :=
  tryDotFrom cs k (dotMax cs)

/-- A fixed literal piece of the pattern. -/
def tryLit {α : Type} (l cs : List Char) (k : List Char → Option α) : Option α :=
  if l.isPrefixOf cs then k (cs.drop l.length) else none

/-- A greedy optional group: try the group body first, then skipping it. -/
def tryOpt {α : Type} (m : List Char → (List Char → Option α) → Option α)
    (cs : List Char) (k : List Char → Option α) : Option α :=
  orElseO (m cs k) (k cs)

def saveCmt : List Char := sl ("// Save and restore working directory")
def origDirLit : List Char := sl ("origDir, _ := os.Getwd()")
def deferLit : List Char := sl ("defer os.Chdir(origDir)")
def givenLit : List Char := sl ("// Given: ")
def tempDirLit : List Char := sl ("tempDir := t.TempDir()")
def chdirLit : List Char := sl ("os.Chdir(tempDir)")
def widLit : List Char := sl ("WithIsolatedDirectory(t, func(workingDir string) \x7b")
def pat2 : List Char := sl ("getFreshRootCmd()")
def rep2 : List Char := sl ("GetCommandInDirectory(workingDir)")
def pat3a : List Char := sl ("assert.FileExists(t, \".ddx.yml\"")
def rep3a : List Char := sl ("assert.FileExists(t, filepath.Join(workingDir, \".ddx.yml\")")
def pat3b : List Char := sl ("os.WriteFile(\".ddx.yml\"")
def rep3b : List Char := sl ("os.WriteFile(filepath.Join(workingDir, \".ddx.yml\")")
def pat3c : List Char := sl ("os.ReadFile(\".ddx.yml\"")
def rep3c : List Char := sl ("os.ReadFile(filepath.Join(workingDir, \".ddx.yml\")")

/-- Body of the first optional group of pattern 1:
the Save-and-restore comment followed by ws+. -/
def saveBody {α : Type} (cs : List Char) (k : List Char → Option α) : Option α :=
  tryLit saveCmt cs fun cs1 => tryWs cs1 k

/-- Body of the second optional group of pattern 1:
the Given comment marker, then dot-star, then ws+. -/
def givenBody {α : Type} (cs : List Char) (k : List Char → Option α) : Option α :=
  tryLit givenLit cs fun cs1 => tryDotStar cs1 fun cs2 => tryWs cs2 k

/-- Attempt to match pattern 1 of fix_test_file at the start of cs.
On success returns the captured leading whitespace (group 1) and the
remainder of the text after the matched span.  The combinator order is
exactly the element order of the Python pattern. -/
def matchP1At (cs : List Char) : Option (List Char × List Char) :=
  tryWsCap cs fun ind cs1 =>
  tryOpt saveBody cs1 fun cs2 =>
  tryLit origDirLit cs2 fun cs3 =>
  tryWs cs3 fun cs4 =>
  tryLit deferLit cs4 fun cs5 =>
  tryWs cs5 fun cs6 =>
  tryOpt givenBody cs6 fun cs7 =>
  tryLit tempDirLit cs7 fun cs8 =>
  tryWs cs8 fun cs9 =>
  tryLit chdirLit cs9 fun cs10 =>
  some (ind, cs10)

/-- The part of the pattern-1 matcher from the origDir literal on,
with the already captured group ind0; definitionally the continuation
used inside matchP1At. -/
def p1Tail (ind0 : List Char) (cs2 : List Char) : Option (List Char × List Char) :=
  tryLit origDirLit cs2 fun cs3 =>
  tryWs cs3 fun cs4 =>
  tryLit deferLit cs4 fun cs5 =>
  tryWs cs5 fun cs6 =>
  tryOpt givenBody cs6 fun cs7 =>
  tryLit tempDirLit cs7 fun cs8 =>
  tryWs cs8 fun cs9 =>
  tryLit chdirLit cs9 fun cs10 =>
  some (ind0, cs10)

/-- re.sub for pattern 1: scan left to right; on a match emit the
captured group followed by the replacement tail and continue after the
match; otherwise keep the character.  Fuel is the input length. -/
def sub1F : Nat → List Char → List Char
  | _, [] => []
  | 0, cs => cs
  | n + 1, c :: cs =>
    match matchP1At (c :: cs) with
    | some (ind, rest) => ind ++ widLit ++ sub1F n rest
    | none => c :: sub1F n cs

def sub1 (cs : List Char) : List Char := sub1F cs.length cs

/-- re.sub for a fully escaped (literal) pattern: leftmost,
non-overlapping scan.  Fuel is the input length. -/
def replAllF (pat rep : List Char) : Nat → List Char → List Char
  | _, [] => []
  | 0, cs => cs
  | n + 1, c :: cs =>
    if pat.isPrefixOf (c :: cs) && !pat.isEmpty then
      rep ++ replAllF pat rep n ((c :: cs).drop pat.length)
    else
      c :: replAllF pat rep n cs

def replaceAll (pat rep cs : List Char) : List Char := replAllF pat rep cs.length cs

/-- The whole rule chain of fix_test_file applied to the text of one
file, in source order: pattern 1, then pattern 2, then the three
pattern 3 passes. -/
def fixContent (cs : List Char) : List Char :=
  replaceAll pat3c rep3c
    (replaceAll pat3b rep3b
      (replaceAll pat3a rep3a
        (replaceAll pat2 rep2 (sub1 cs))))

/-- The pure core of fix_test_file: the transformed text together with
the changed flag (structural inequality with the original text). -/
def rewrite (cs : List Char) : List Char × Bool :=
  (fixContent cs, fixContent cs != cs)

/- ---------------------------------------------------------------
File-system model for the I/O part of the script: a directory is a
list of (name, content) pairs; reading takes the first entry with the
given name; writing updates it in place or appends a fresh entry.
--------------------------------------------------------------- -/

abbrev FName := List Char

abbrev Dir := List (FName × List Char)

def fsRead : Dir → FName → Option (List Char)
  | [], _ => none
  | e :: t, n => if e.1 = n then some e.2 else fsRead t n

def fsWrite : Dir → FName → List Char → Dir
  | [], n, c => [(n, c)]
  | e :: t, n, c => if e.1 = n then (n, c) :: t else e :: fsWrite t n c

def backupSuffix : List Char := sl (".backup")

/-- fix_test_file: read the file, run the rule chain; when the text
changed, first write the backup copy (original name plus suffix, with
the original content), then overwrite the file, and report true;
otherwise leave the directory untouched and report false.  A missing
file is the uncaught per-file I/O error (none). -/
def fix_test_file (fs : Dir) (p : FName) : Option (Dir × Bool) :=
  match fsRead fs p with
  | none => none
  | some content =>
    if fixContent content = content then
      some (fs, false)
    else
      some (fsWrite (fsWrite fs (p ++ backupSuffix) content) p (fixContent content), true)

def testSuffix : List Char := sl ("_test.go")

/-- Number of backup artifacts in a directory. -/
def countBackups (fs : Dir) : Nat :=
  (fs.filter fun e => backupSuffix.isSuffixOf e.1).length

/-- Process the listed file names in order, threading the directory
state and counting the files reported fixed. -/
def processFiles : Dir → List FName → Option (Dir × Nat)
  | fs, [] => some (fs, 0)
  | fs, n :: rest =>
    match fix_test_file fs n with
    | none => none
    | some (fs1, b) =>
      match processFiles fs1 rest with
      | none => none
      | some (fs2, k) => some (fs2, if b then k + 1 else k)

/-- The scripts main function (the name main is reserved in Lean, so
mainRun here): exit 1 when the cmd directory is missing (nothing
touched); otherwise process every listed name ending in the test
suffix and exit 0.  The result carries the final directory and the
summary count when the run completed. -/
def mainRun : Option Dir → Option (Dir × Nat) × Nat
  | none => (none, 1)
  | some fs =>
    match processFiles fs ((fs.map Prod.fst).filter fun n => testSuffix.isSuffixOf n) with
    | none => (none, 1)
    | some (fs1, k) => (some (fs1, k), 0)

/- ---------------------------------------------------------------
Auxiliary predicates and the boilerplate snippet of property P2,
written in right-nested append form (the form the matcher consumes).
--------------------------------------------------------------- -/

def headNotWs : List Char → Bool
  | [] => true
  | c :: _ => !(isWs c)

def headNl : List Char → Bool
  | [] => true
  | c :: _ => c == '\n'

/-- hasSubstr p cs: some suffix of cs starts with p. -/
def hasSubstr (p : List Char) : List Char → Bool
  | [] => p.isEmpty
  | c :: t => p.isPrefixOf (c :: t) || hasSubstr p t

/-- A newline followed by the indentation of the next line. -/
def nlInd (ind : List Char) : List Char := '\n' :: ind

def snipFrom3 (ind : List Char) : List Char :=
  tempDirLit ++ (nlInd ind ++ chdirLit)

def snipFrom2 (ind : List Char) (b2 : Bool) (gc : List Char) : List Char :=
  deferLit ++ (nlInd ind ++
    cond b2 (givenLit ++ (gc ++ (nlInd ind ++ snipFrom3 ind))) (snipFrom3 ind))

def snipFrom1 (ind : List Char) (b2 : Bool) (gc : List Char) : List Char :=
  origDirLit ++ (nlInd ind ++ snipFrom2 ind b2 gc)

/-- The four-statement boilerplate idiom, each line indented by ind,
optionally preceded by the Save-and-restore comment line (b1) and
optionally with a Given comment line with content gc between the defer
line and the TempDir line (b2), exactly as the pattern expects. -/
def snippet (ind : List Char) (b1 b2 : Bool) (gc : List Char) : List Char :=
  ind ++ cond b1 (saveCmt ++ (nlInd ind ++ snipFrom1 ind b2 gc)) (snipFrom1 ind b2 gc)

/- ---------------------------------------------------------------
Inversion lemmas: a successful combinator run hands a suffix of its
input to the continuation; a run of the whole pattern consumes at
least one character, starts at a whitespace character, and passes
over an occurrence of the origDir literal.
--------------------------------------------------------------- -/

theorem orElseO_eq_some {α : Type} {x y : Option α} {a : α} (h : orElseO x y = some a) :
    x = some a ∨ y = some a := by
  cases x with
  | none => exact Or.inr h
  | some b => exact Or.inl h

theorem wsMax_le_length (cs : List Char) : wsMax cs ≤ cs.length := by
  induction cs with
  | nil => simp [wsMax]
  | cons c t ih =>
    simp only [wsMax, List.length_cons]
    split <;> omega

theorem wsMax_pos_head {cs : List Char} (h : 1 ≤ wsMax cs) :
    ∃ c t, cs = c :: t ∧ isWs c = true := by
  cases cs with
  | nil => simp [wsMax] at h
  | cons c t =>
    refine ⟨c, t, rfl, ?_⟩
    by_contra hb
    rw [Bool.not_eq_true] at hb
    simp [wsMax, hb] at h

theorem tryWsFrom_some {α : Type} {cs : List Char} {k : List Char → Option α} {a : α} :
    ∀ {i : Nat}, tryWsFrom cs k i = some a →
      ∃ j, 1 ≤ j ∧ j ≤ i ∧ k (cs.drop j) = some a := by
  intro i
  induction i with
  | zero => intro h; simp [tryWsFrom] at h
  | succ i ih =>
    intro h
    rcases orElseO_eq_some h with h1 | h1
    · exact ⟨i + 1, by omega, by omega, h1⟩
    · obtain ⟨j, hj1, hj2, hk⟩ := ih h1
      exact ⟨j, hj1, by omega, hk⟩

theorem tryWs_some {α : Type} {cs : List Char} {k : List Char → Option α} {a : α}
    (h : tryWs cs k = some a) :
    ∃ s, s <:+ cs ∧ s.length < cs.length ∧ k s = some a := by
  obtain ⟨j, hj1, hj2, hk⟩ := tryWsFrom_some h
  have hb := wsMax_le_length cs
  refine ⟨cs.drop j, List.drop_suffix j cs, ?_, hk⟩
  rw [List.length_drop]
  omega

theorem tryWsCapFrom_some {α : Type} {cs : List Char} {k : List Char → List Char → Option α}
    {a : α} : ∀ {i : Nat}, tryWsCapFrom cs k i = some a →
      ∃ j, 1 ≤ j ∧ j ≤ i ∧ k (cs.take j) (cs.drop j) = some a := by
  intro i
  induction i with
  | zero => intro h; simp [tryWsCapFrom] at h
  | succ i ih =>
    intro h
    rcases orElseO_eq_some h with h1 | h1
    · exact ⟨i + 1, by omega, by omega, h1⟩
    · obtain ⟨j, hj1, hj2, hk⟩ := ih h1
      exact ⟨j, hj1, by omega, hk⟩

theorem tryWsCap_some {α : Type} {cs : List Char} {k : List Char → List Char → Option α}
    {a : α} (h : tryWsCap cs k = some a) :
    ∃ j, 1 ≤ j ∧ j ≤ wsMax cs ∧ k (cs.take j) (cs.drop j) = some a :=
  tryWsCapFrom_some h

theorem tryDotFrom_some {α : Type} {cs : List Char} {k : List Char → Option α} {a : α} :
    ∀ {i : Nat}, tryDotFrom cs k i = some a → ∃ j, k (cs.drop j) = some a := by
  intro i
  induction i with
  | zero =>
    intro h
    exact ⟨0, by simpa [List.drop_zero] using h⟩
  | succ i ih =>
    intro h
    rcases orElseO_eq_some h with h1 | h1
    · exact ⟨i + 1, h1⟩
    · exact ih h1

theorem tryDotStar_some {α : Type} {cs : List Char} {k : List Char → Option α} {a : α}
    (h : tryDotStar cs k = some a) : ∃ s, s <:+ cs ∧ k s = some a := by
  obtain ⟨j, hk⟩ := tryDotFrom_some h
  exact ⟨cs.drop j, List.drop_suffix j cs, hk⟩

theorem tryLit_some {α : Type} {l cs : List Char} {k : List Char → Option α} {a : α}
    (h : tryLit l cs k = some a) :
    l.isPrefixOf cs = true ∧ k (cs.drop l.length) = some a := by
  by_cases hp : l.isPrefixOf cs
  · exact ⟨hp, by simpa [tryLit, hp] using h⟩
  · simp [tryLit, hp] at h

theorem tryOpt_some {α : Type} {m : List Char → (List Char → Option α) → Option α}
    {cs : List Char} {k : List Char → Option α} {a : α}
    (h : tryOpt m cs k = some a) : m cs k = some a ∨ k cs = some a :=
  orElseO_eq_some h

theorem saveBody_some {α : Type} {cs : List Char} {k : List Char → Option α} {a : α}
    (h : saveBody cs k = some a) : ∃ s, s <:+ cs ∧ k s = some a := by
  obtain ⟨hp, hk⟩ := tryLit_some h
  obtain ⟨s, hs, _, hk2⟩ := tryWs_some hk
  exact ⟨s, hs.trans (List.drop_suffix _ _), hk2⟩

theorem givenBody_some {α : Type} {cs : List Char} {k : List Char → Option α} {a : α}
    (h : givenBody cs k = some a) : ∃ s, s <:+ cs ∧ k s = some a := by
  obtain ⟨hp, hk⟩ := tryLit_some h
  obtain ⟨s2, hs2, hk2⟩ := tryDotStar_some hk
  obtain ⟨s3, hs3, _, hk3⟩ := tryWs_some hk2
  exact ⟨s3, (hs3.trans hs2).trans (List.drop_suffix _ _), hk3⟩

theorem tryOptSave_some {α : Type} {cs : List Char} {k : List Char → Option α} {a : α}
    (h : tryOpt saveBody cs k = some a) : ∃ s, s <:+ cs ∧ k s = some a := by
  rcases tryOpt_some h with h1 | h1
  · exact saveBody_some h1
  · exact ⟨cs, List.suffix_refl cs, h1⟩

theorem tryOptGiven_some {α : Type} {cs : List Char} {k : List Char → Option α} {a : α}
    (h : tryOpt givenBody cs k = some a) : ∃ s, s <:+ cs ∧ k s = some a := by
  rcases tryOpt_some h with h1 | h1
  · exact givenBody_some h1
  · exact ⟨cs, List.suffix_refl cs, h1⟩

/-- Master inversion lemma for a successful pattern-1 match: the
remainder is a strictly shorter suffix of the input, the input begins
with a whitespace character, and the matched span includes a
position where the origDir literal occurs. -/
theorem matchP1At_some {cs ind rest : List Char}
    (h : matchP1At cs = some (ind, rest)) :
    rest.length < cs.length ∧ rest <:+ cs ∧
      (∃ s, s <:+ cs ∧ origDirLit.isPrefixOf s = true) ∧
      ∃ c t, cs = c :: t ∧ isWs c = true := by
  obtain ⟨j, hj1, hj2, hk⟩ := tryWsCap_some h
  have hhead := wsMax_pos_head (le_trans hj1 hj2)
  have hsuf1 : cs.drop j <:+ cs := List.drop_suffix j cs
  have hlen1 : (cs.drop j).length < cs.length := by
    have hb := wsMax_le_length cs
    rw [List.length_drop]
    omega
  obtain ⟨s2, hs2, hk2⟩ := tryOptSave_some hk
  obtain ⟨hporig, hk3⟩ := tryLit_some hk2
  have hsuf2 : s2 <:+ cs := hs2.trans hsuf1
  obtain ⟨s4, hs4, _, hk4⟩ := tryWs_some hk3
  have hsuf4 : s4 <:+ cs := (hs4.trans (List.drop_suffix _ _)).trans hsuf2
  obtain ⟨hpdefer, hk5⟩ := tryLit_some hk4
  obtain ⟨s6, hs6, _, hk6⟩ := tryWs_some hk5
  have hsuf6 : s6 <:+ cs := (hs6.trans (List.drop_suffix _ _)).trans hsuf4
  obtain ⟨s7, hs7, hk7⟩ := tryOptGiven_some hk6
  have hsuf7 : s7 <:+ cs := hs7.trans hsuf6
  obtain ⟨hptmp, hk8⟩ := tryLit_some hk7
  obtain ⟨s9, hs9, _, hk9⟩ := tryWs_some hk8
  have hsuf9 : s9 <:+ cs := (hs9.trans (List.drop_suffix _ _)).trans hsuf7
  obtain ⟨hpchd, hk10⟩ := tryLit_some hk9
  simp only [Option.some.injEq, Prod.mk.injEq] at hk10
  obtain ⟨hind, hrest⟩ := hk10
  have hsufr : rest <:+ cs := by
    rw [← hrest]
    exact (List.drop_suffix _ _).trans hsuf9
  refine ⟨?_, hsufr, ⟨s2, hsuf2, hporig⟩, hhead⟩
  have h1 : rest.length ≤ (cs.drop j).length := by
    have : rest <:+ cs.drop j := by
      rw [← hrest]
      refine (List.drop_suffix _ _).trans ?_
      refine (hs9.trans (List.drop_suffix _ _)).trans ?_
      refine (hs7.trans ?_)
      refine (hs6.trans (List.drop_suffix _ _)).trans ?_
      refine (hs4.trans (List.drop_suffix _ _)).trans ?_
      exact hs2
    exact this.length_le
  omega

/- ---------------------------------------------------------------
Fuel adequacy: any fuel at least the input length gives the same
result, so the fueled definitions compute the untruncated scan.
--------------------------------------------------------------- -/

theorem sub1F_fuel : ∀ (n : Nat) (cs : List Char), cs.length ≤ n →
    ∀ (m : Nat), cs.length ≤ m → sub1F n cs = sub1F m cs := by
  intro n
  induction n with
  | zero =>
    intro cs hn m hm
    have hnil : cs = [] := List.length_eq_zero.mp (Nat.le_zero.mp hn)
    subst hnil
    cases m <;> simp [sub1F]
  | succ n ih =>
    intro cs hn m hm
    cases cs with
    | nil => cases m <;> simp [sub1F]
    | cons c t =>
      obtain ⟨m', rfl⟩ : ∃ m', m = m' + 1 := by
        cases m
        · simp at hm
        · exact ⟨_, rfl⟩
      simp only [sub1F]
      simp only [List.length_cons] at hn hm
      cases hmt : matchP1At (c :: t) with
      | some p =>
        obtain ⟨ind, rest⟩ := p
        have hlt := (matchP1At_some hmt).1
        simp only [List.length_cons] at hlt
        dsimp only
        rw [ih rest (by omega) m' (by omega)]
      | none =>
        dsimp only
        rw [ih t (by omega) m' (by omega)]

theorem sub1_nil : sub1 [] = [] := rfl

theorem sub1_cons_of_match {c : Char} {t ind rest : List Char}
    (h : matchP1At (c :: t) = some (ind, rest)) :
    sub1 (c :: t) = ind ++ widLit ++ sub1 rest := by
  have hlt := (matchP1At_some h).1
  simp only [List.length_cons] at hlt
  show sub1F (t.length + 1) (c :: t) = _
  simp only [sub1F]
  rw [h]
  dsimp only
  rw [sub1F_fuel t.length rest (by omega) rest.length (le_refl _)]
  rfl

theorem sub1_cons_of_none {c : Char} {t : List Char}
    (h : matchP1At (c :: t) = none) : sub1 (c :: t) = c :: sub1 t := by
  show sub1F (t.length + 1) (c :: t) = _
  simp only [sub1F]
  rw [h]
  rfl

theorem sub1_eq_of_match {cs ind rest : List Char} (hne : cs ≠ [])
    (h : matchP1At cs = some (ind, rest)) : sub1 cs = ind ++ widLit ++ sub1 rest := by
  cases cs with
  | nil => exact absurd rfl hne
  | cons c t => exact sub1_cons_of_match h

theorem replAllF_fuel (pat rep : List Char) : ∀ (n : Nat) (cs : List Char), cs.length ≤ n →
    ∀ (m : Nat), cs.length ≤ m → replAllF pat rep n cs = replAllF pat rep m cs := by
  intro n
  induction n with
  | zero =>
    intro cs hn m hm
    have hnil : cs = [] := List.length_eq_zero.mp (Nat.le_zero.mp hn)
    subst hnil
    cases m <;> simp [replAllF]
  | succ n ih =>
    intro cs hn m hm
    cases cs with
    | nil => cases m <;> simp [replAllF]
    | cons c t =>
      obtain ⟨m', rfl⟩ : ∃ m', m = m' + 1 := by
        cases m
        · simp at hm
        · exact ⟨_, rfl⟩
      simp only [replAllF]
      simp only [List.length_cons] at hn hm
      by_cases hp : (pat.isPrefixOf (c :: t) && !pat.isEmpty) = true
      · rw [if_pos hp, if_pos hp]
        have hplen : 1 ≤ pat.length := by
          cases pat with
          | nil => simp at hp
          | cons a b => simp
        have hdl : ((c :: t).drop pat.length).length ≤ t.length := by
          rw [List.length_drop]
          simp only [List.length_cons]
          omega
        rw [ih _ (by omega) m' (by omega)]
      · rw [if_neg hp, if_neg hp]
        rw [ih t (by omega) m' (by omega)]

theorem replaceAll_nil (pat rep : List Char) : replaceAll pat rep [] = [] := rfl

theorem replaceAll_cons_pos {pat : List Char} (rep : List Char) {c : Char} {t : List Char}
    (hp : pat.isPrefixOf (c :: t) = true) (hne : pat ≠ []) :
    replaceAll pat rep (c :: t) = rep ++ replaceAll pat rep ((c :: t).drop pat.length) := by
  have hplen : 1 ≤ pat.length := by
    cases pat with
    | nil => exact absurd rfl hne
    | cons a b => simp
  have hemp : pat.isEmpty = false := by
    cases pat with
    | nil => exact absurd rfl hne
    | cons a b => rfl
  show replAllF pat rep (t.length + 1) (c :: t) = _
  simp only [replAllF, hp, hemp, Bool.not_false, Bool.and_self, if_true]
  have hdl : ((c :: t).drop pat.length).length ≤ t.length := by
    rw [List.length_drop]
    simp only [List.length_cons]
    omega
  rw [replAllF_fuel pat rep t.length _ hdl _ (le_refl _)]
  rfl

theorem replaceAll_cons_neg {pat : List Char} (rep : List Char) {c : Char} {t : List Char}
    (hp : pat.isPrefixOf (c :: t) = false) :
    replaceAll pat rep (c :: t) = c :: replaceAll pat rep t := by
  show replAllF pat rep (t.length + 1) (c :: t) = _
  simp only [replAllF, hp, Bool.false_and]
  rfl

/- ---------------------------------------------------------------
Substring occurrence and identity of the passes on trigger-free text.
--------------------------------------------------------------- -/

theorem hasSubstr_of_suffix_starts {p s cs : List Char}
    (hs : s <:+ cs) (hp : p.isPrefixOf s = true) : hasSubstr p cs = true := by
  induction cs with
  | nil =>
    have hnil : s = [] := List.suffix_nil.mp hs
    subst hnil
    cases p with
    | nil => rfl
    | cons a b => simp [List.isPrefixOf] at hp
  | cons c t ih =>
    rcases List.suffix_cons_iff.mp hs with h1 | h1
    · subst h1
      simp [hasSubstr, hp]
    · simp [hasSubstr, ih h1]

theorem matchP1At_none_of_not_contains {cs : List Char}
    (h : hasSubstr origDirLit cs = false) : matchP1At cs = none := by
  cases hm : matchP1At cs with
  | none => rfl
  | some p =>
    obtain ⟨ind, rest⟩ := p
    obtain ⟨-, -, ⟨s, hs, hp⟩, -⟩ := matchP1At_some hm
    rw [hasSubstr_of_suffix_starts hs hp] at h
    cases h

theorem sub1_id_of_not_contains {cs : List Char}
    (h : hasSubstr origDirLit cs = false) : sub1 cs = cs := by
  induction cs with
  | nil => rfl
  | cons c t ih =>
    simp only [hasSubstr, Bool.or_eq_false_iff] at h
    rw [sub1_cons_of_none (matchP1At_none_of_not_contains (by simp [hasSubstr, h.1, h.2]))]
    rw [ih h.2]

theorem sub1_id_of_no_match {cs : List Char}
    (h : ∀ s ∈ cs.tails, matchP1At s = none) : sub1 cs = cs := by
  induction cs with
  | nil => rfl
  | cons c t ih =>
    rw [sub1_cons_of_none (h (c :: t) (by simp [List.tails_cons]))]
    refine congrArg _ (ih ?_)
    intro s hs
    refine h s ?_
    rw [List.tails_cons]
    exact List.mem_cons_of_mem _ hs

theorem replaceAll_id_of_not_contains {pat rep cs : List Char}
    (h : hasSubstr pat cs = false) : replaceAll pat rep cs = cs := by
  induction cs with
  | nil => rfl
  | cons c t ih =>
    simp only [hasSubstr, Bool.or_eq_false_iff] at h
    rw [replaceAll_cons_neg rep h.1, ih h.2]

theorem hasSubstr_nil_left (cs : List Char) : hasSubstr [] cs = true := by
  cases cs with
  | nil => rfl
  | cons c t => rfl

/-- An occurrence of a pattern starting with a non-whitespace character
cannot begin inside an all-whitespace prefix. -/
theorem hasSubstr_ws_append {p w l : List Char}
    (hc : headNotWs p = true) (hw : ∀ c ∈ w, isWs c = true) :
    hasSubstr p (w ++ l) = hasSubstr p l := by
  cases p with
  | nil => rw [hasSubstr_nil_left, hasSubstr_nil_left]
  | cons c0 p' =>
    simp only [headNotWs, Bool.not_eq_true'] at hc
    induction w with
    | nil => simp
    | cons c t ih =>
      have hct : isWs c = true := hw c (by simp)
      have hne : (c0 :: p').isPrefixOf (c :: (t ++ l)) = false := by
        simp only [List.isPrefixOf]
        have hbe : (c0 == c) = false := by
          rw [beq_eq_false_iff_ne]
          intro he
          rw [he, hct] at hc
          cases hc
        simp [hbe]
      rw [List.cons_append]
      rw [show hasSubstr (c0 :: p') (c :: (t ++ l)) =
        ((c0 :: p').isPrefixOf (c :: (t ++ l)) || hasSubstr (c0 :: p') (t ++ l)) from rfl]
      rw [hne, Bool.false_or]
      exact ih fun c hcm => hw c (by simp [hcm])

theorem rewrite_eq_self {cs : List Char} (h : fixContent cs = cs) : rewrite cs = (cs, false) := by
  simp [rewrite, h]

/- ---------------------------------------------------------------
Success lemmas: running the matcher over text laid out exactly as the
pattern expects takes the greedy first candidate at every choice
point and succeeds.
--------------------------------------------------------------- -/

theorem wsMax_run {w rest : List Char} (hw : ∀ c ∈ w, isWs c = true)
    (hr : headNotWs rest = true) : wsMax (w ++ rest) = w.length := by
  induction w with
  | nil =>
    simp only [List.nil_append, List.length_nil]
    cases rest with
    | nil => rfl
    | cons c t =>
      simp only [headNotWs, Bool.not_eq_true'] at hr
      simp [wsMax, hr]
  | cons c t ih =>
    simp only [List.cons_append, wsMax, hw c (by simp), if_true, List.length_cons]
    show wsMax (t ++ rest) + 1 = t.length + 1
    rw [ih fun x hx => hw x (by simp [hx])]

theorem dotMax_run {d rest : List Char} (hd : ∀ c ∈ d, (c == '\n') = false)
    (hr : headNl rest = true) : dotMax (d ++ rest) = d.length := by
  induction d with
  | nil =>
    simp only [List.nil_append, List.length_nil]
    cases rest with
    | nil => rfl
    | cons c t =>
      simp only [headNl] at hr
      simp [dotMax, hr]
  | cons c t ih =>
    simp only [List.cons_append, dotMax, hd c (by simp), List.length_cons]
    rw [if_neg (by simp)]
    show dotMax (t ++ rest) + 1 = t.length + 1
    rw [ih fun x hx => hd x (by simp [hx])]

theorem tryWs_run {α : Type} (w rest : List Char) {k : List Char → Option α} {a : α}
    (hw : ∀ c ∈ w, isWs c = true) (hne : w ≠ []) (hr : headNotWs rest = true)
    (hk : k rest = some a) : tryWs (w ++ rest) k = some a := by
  have hmax : wsMax (w ++ rest) = w.length := wsMax_run hw hr
  cases w with
  | nil => exact absurd rfl hne
  | cons c t =>
    show tryWsFrom ((c :: t) ++ rest) k (wsMax ((c :: t) ++ rest)) = some a
    rw [hmax]
    simp only [List.length_cons, tryWsFrom]
    rw [show ((c :: t) ++ rest).drop (t.length + 1) = rest from
      List.drop_left (c :: t) rest]
    rw [hk]
    rfl

theorem tryWsCap_run {α : Type} (w rest : List Char) {k : List Char → List Char → Option α}
    {a : α} (hw : ∀ c ∈ w, isWs c = true) (hne : w ≠ []) (hr : headNotWs rest = true)
    (hk : k w rest = some a) : tryWsCap (w ++ rest) k = some a := by
  have hmax : wsMax (w ++ rest) = w.length := wsMax_run hw hr
  cases w with
  | nil => exact absurd rfl hne
  | cons c t =>
    show tryWsCapFrom ((c :: t) ++ rest) k (wsMax ((c :: t) ++ rest)) = some a
    rw [hmax]
    simp only [List.length_cons, tryWsCapFrom]
    rw [show ((c :: t) ++ rest).take (t.length + 1) = c :: t from
      List.take_left (c :: t) rest]
    rw [show ((c :: t) ++ rest).drop (t.length + 1) = rest from
      List.drop_left (c :: t) rest]
    rw [hk]
    rfl

theorem tryDotStar_run {α : Type} (d rest : List Char) {k : List Char → Option α} {a : α}
    (hd : ∀ c ∈ d, (c == '\n') = false) (hr : headNl rest = true)
    (hk : k rest = some a) : tryDotStar (d ++ rest) k = some a := by
  have hmax : dotMax (d ++ rest) = d.length := dotMax_run hd hr
  cases d with
  | nil =>
    show tryDotFrom ([] ++ rest) k (dotMax ([] ++ rest)) = some a
    rw [hmax]
    simp only [List.length_nil, tryDotFrom, List.nil_append]
    exact hk
  | cons c t =>
    show tryDotFrom ((c :: t) ++ rest) k (dotMax ((c :: t) ++ rest)) = some a
    rw [hmax]
    simp only [List.length_cons, tryDotFrom]
    rw [show ((c :: t) ++ rest).drop (t.length + 1) = rest from
      List.drop_left (c :: t) rest]
    rw [hk]
    rfl

theorem isPrefixOf_self_append (l rest : List Char) : l.isPrefixOf (l ++ rest) = true := by
  induction l with
  | nil => cases rest <;> rfl
  | cons c t ih => simp [List.isPrefixOf, ih]

theorem tryLit_run {α : Type} (l rest : List Char) {k : List Char → Option α} {a : α}
    (hk : k rest = some a) : tryLit l (l ++ rest) k = some a := by
  simp [tryLit, isPrefixOf_self_append, List.drop_left, hk]

theorem tryLit_none {α : Type} {l cs : List Char} (k : List Char → Option α)
    (h : l.isPrefixOf cs = false) : tryLit l cs k = none := by
  simp [tryLit, h]

theorem tryOpt_run_take {α : Type} {m : List Char → (List Char → Option α) → Option α}
    {cs : List Char} {k : List Char → Option α} {a : α}
    (hm : m cs k = some a) : tryOpt m cs k = some a := by
  unfold tryOpt
  rw [hm]
  rfl

theorem tryOpt_run_skip {α : Type} {m : List Char → (List Char → Option α) → Option α}
    {cs : List Char} {k : List Char → Option α} {a : α}
    (hm : m cs k = none) (hk : k cs = some a) : tryOpt m cs k = some a := by
  unfold tryOpt
  rw [hm, hk]
  rfl

theorem saveBody_none {α : Type} {cs : List Char} (k : List Char → Option α)
    (h : saveCmt.isPrefixOf cs = false) : saveBody cs k = none :=
  tryLit_none _ h

theorem givenBody_none {α : Type} {cs : List Char} (k : List Char → Option α)
    (h : givenLit.isPrefixOf cs = false) : givenBody cs k = none :=
  tryLit_none _ h

theorem ws_nl_cons {ind : List Char} (hws : ∀ c ∈ ind, isWs c = true) :
    ∀ c ∈ '\n' :: ind, isWs c = true := by
  intro c hc
  rcases List.mem_cons.mp hc with h | h
  · subst h
    rfl
  · exact hws c h

/-- Running the tail of pattern 1 over the snippet laid out from the
origDir line succeeds with an empty remainder. -/
theorem p1Tail_run (ind0 ind gc : List Char) (b2 : Bool)
    (hws : ∀ c ∈ ind, isWs c = true)
    (hgc : ∀ c ∈ gc, (c == '\n') = false) :
    p1Tail ind0 (snipFrom1 ind b2 gc) = some (ind0, []) := by
  have hnlws := ws_nl_cons hws
  have hnlne : ('\n' :: ind) ≠ [] := by simp
  have hfin : tryLit chdirLit (chdirLit ++ [])
      (fun cs10 => some (ind0, cs10)) = some (ind0, ([] : List Char)) :=
    tryLit_run chdirLit [] rfl
  rw [List.append_nil] at hfin
  cases b2 with
  | false =>
    refine tryLit_run origDirLit _ ?_
    refine tryWs_run ('\n' :: ind) _ hnlws hnlne rfl ?_
    refine tryLit_run deferLit _ ?_
    refine tryWs_run ('\n' :: ind) _ hnlws hnlne rfl ?_
    refine tryOpt_run_skip (givenBody_none _ rfl) ?_
    refine tryLit_run tempDirLit _ ?_
    refine tryWs_run ('\n' :: ind) _ hnlws hnlne rfl ?_
    exact hfin
  | true =>
    refine tryLit_run origDirLit _ ?_
    refine tryWs_run ('\n' :: ind) _ hnlws hnlne rfl ?_
    refine tryLit_run deferLit _ ?_
    refine tryWs_run ('\n' :: ind) _ hnlws hnlne rfl ?_
    refine tryOpt_run_take ?_
    refine tryLit_run givenLit _ ?_
    refine tryDotStar_run gc _ hgc rfl ?_
    refine tryWs_run ('\n' :: ind) _ hnlws hnlne rfl ?_
    refine tryLit_run tempDirLit _ ?_
    refine tryWs_run ('\n' :: ind) _ hnlws hnlne rfl ?_
    exact hfin

/-- Pattern 1 matches the whole snippet, capturing exactly the
indentation and leaving an empty remainder. -/
theorem matchP1At_snippet (ind gc : List Char) (b1 b2 : Bool)
    (hne : ind ≠ []) (hws : ∀ c ∈ ind, isWs c = true)
    (hgc : ∀ c ∈ gc, (c == '\n') = false) :
    matchP1At (snippet ind b1 b2 gc) = some (ind, []) := by
  have hnlws := ws_nl_cons hws
  have hnlne : ('\n' :: ind) ≠ [] := by simp
  cases b1 with
  | false =>
    refine tryWsCap_run ind _ hws hne rfl ?_
    refine tryOpt_run_skip (saveBody_none _ rfl) ?_
    exact p1Tail_run ind ind gc b2 hws hgc
  | true =>
    refine tryWsCap_run ind _ hws hne rfl ?_
    refine tryOpt_run_take ?_
    refine tryLit_run saveCmt _ ?_
    refine tryWs_run ('\n' :: ind) _ hnlws hnlne rfl ?_
    exact p1Tail_run ind ind gc b2 hws hgc

/- ---------------------------------------------------------------
Shared consequences used by the claim theorems.
--------------------------------------------------------------- -/

theorem snippet_ne_nil {ind : List Char} (hne : ind ≠ []) (b1 b2 : Bool) (gc : List Char) :
    snippet ind b1 b2 gc ≠ [] := by
  unfold snippet
  cases ind with
  | nil => exact absurd rfl hne
  | cons c t => simp

theorem sub1_snippet (ind gc : List Char) (b1 b2 : Bool) (hne : ind ≠ [])
    (hws : ∀ c ∈ ind, isWs c = true) (hgc : ∀ c ∈ gc, (c == '\n') = false) :
    sub1 (snippet ind b1 b2 gc) = ind ++ widLit := by
  have hm := matchP1At_snippet ind gc b1 b2 hne hws hgc
  rw [sub1_eq_of_match (snippet_ne_nil hne b1 b2 gc) hm, sub1_nil, List.append_nil]

theorem widLit_clean :
    hasSubstr origDirLit widLit = false ∧ hasSubstr pat2 widLit = false ∧
      hasSubstr pat3a widLit = false ∧ hasSubstr pat3b widLit = false ∧
      hasSubstr pat3c widLit = false := by
  decide

theorem replChain_id {cs : List Char}
    (h2 : hasSubstr pat2 cs = false) (h3 : hasSubstr pat3a cs = false)
    (h4 : hasSubstr pat3b cs = false) (h5 : hasSubstr pat3c cs = false) :
    replaceAll pat3c rep3c (replaceAll pat3b rep3b (replaceAll pat3a rep3a
      (replaceAll pat2 rep2 cs))) = cs := by
  rw [replaceAll_id_of_not_contains h2, replaceAll_id_of_not_contains h3,
    replaceAll_id_of_not_contains h4, replaceAll_id_of_not_contains h5]

theorem out_clean4 {ind : List Char} (hws : ∀ c ∈ ind, isWs c = true) :
    hasSubstr pat2 (ind ++ widLit) = false ∧ hasSubstr pat3a (ind ++ widLit) = false ∧
      hasSubstr pat3b (ind ++ widLit) = false ∧ hasSubstr pat3c (ind ++ widLit) = false := by
  refine ⟨?_, ?_, ?_, ?_⟩
  · rw [hasSubstr_ws_append (p := pat2) rfl hws]
    decide
  · rw [hasSubstr_ws_append (p := pat3a) rfl hws]
    decide
  · rw [hasSubstr_ws_append (p := pat3b) rfl hws]
    decide
  · rw [hasSubstr_ws_append (p := pat3c) rfl hws]
    decide

theorem fixContent_out_id {ind : List Char} (hws : ∀ c ∈ ind, isWs c = true) :
    fixContent (ind ++ widLit) = ind ++ widLit := by
  unfold fixContent
  have ho := out_clean4 hws
  have h1 : hasSubstr origDirLit (ind ++ widLit) = false := by
    rw [hasSubstr_ws_append (p := origDirLit) rfl hws]
    decide
  rw [sub1_id_of_not_contains h1]
  exact replChain_id ho.1 ho.2.1 ho.2.2.1 ho.2.2.2

theorem fixContent_snippet (ind gc : List Char) (b1 b2 : Bool) (hne : ind ≠ [])
    (hws : ∀ c ∈ ind, isWs c = true) (hgc : ∀ c ∈ gc, (c == '\n') = false) :
    fixContent (snippet ind b1 b2 gc) = ind ++ widLit := by
  unfold fixContent
  rw [sub1_snippet ind gc b1 b2 hne hws hgc]
  have ho := out_clean4 hws
  exact replChain_id ho.1 ho.2.1 ho.2.2.1 ho.2.2.2

theorem rewrite_eq_changed {cs out : List Char} (h : fixContent cs = out) (hne : out ≠ cs) :
    rewrite cs = (out, true) := by
  have hb : (out != cs) = true := bne_iff_ne.mpr hne
  unfold rewrite
  rw [h, hb]

theorem out_ne_snippet (ind gc : List Char) (b1 b2 : Bool) :
    ind ++ widLit ≠ snippet ind b1 b2 gc := by
  intro h
  unfold snippet at h
  have h2 := List.append_cancel_left h
  cases b1 with
  | false =>
    simp only [Bool.cond_false] at h2
    have hh := congrArg List.head? h2
    rw [show widLit.head? = some 'W' from rfl,
      show (snipFrom1 ind b2 gc).head? = some 'o' from rfl] at hh
    simp only [Option.some.injEq] at hh
    exact absurd hh (by decide)
  | true =>
    simp only [Bool.cond_true] at h2
    have hh := congrArg List.head? h2
    rw [show widLit.head? = some 'W' from rfl,
      show (saveCmt ++ (nlInd ind ++ snipFrom1 ind b2 gc)).head? = some '/' from rfl] at hh
    simp only [Option.some.injEq] at hh
    exact absurd hh (by decide)

/- ---------------------------------------------------------------
Claim theorems.
--------------------------------------------------------------- -/

/-- C1 counterexample: on the complete call assert.FileExists with the
fixed path literal, the rule chain does NOT produce the text the claim
predicts (the matched prefix replaced by an inserted
filepath.Join(workingDir, ...) fragment without its own closing
parenthesis): the actual replacement template carries its own closing
parenthesis, and the actual output has equally many opening and
closing parentheses. -/
theorem spec_C1_counterexample :
    fixContent (sl ("assert.FileExists(t, \".ddx.yml\")")) ≠
      sl ("assert.FileExists(t, filepath.Join(workingDir, \".ddx.yml\")") ∧
    (fixContent (sl ("assert.FileExists(t, \".ddx.yml\")"))).count '(' =
      (fixContent (sl ("assert.FileExists(t, \".ddx.yml\")"))).count ')' :=
  ⟨by decide, by decide⟩

/-- C1 amended: for an input line containing the complete call
assert.FileExists(t, dot-ddx-yml) the path-qualification rule replaces
the matched prefix by a template that itself ends in a closing
parenthesis, leaving the remainder of the line unchanged, so the
resulting line is balanced; the same holds for the os.WriteFile and
os.ReadFile shapes. -/
theorem spec_C1_amended :
    fixContent (sl ("\tassert.FileExists(t, \".ddx.yml\")\n")) =
      sl ("\tassert.FileExists(t, filepath.Join(workingDir, \".ddx.yml\"))\n") ∧
    fixContent (sl ("\tdata, err := os.ReadFile(\".ddx.yml\")\n")) =
      sl ("\tdata, err := os.ReadFile(filepath.Join(workingDir, \".ddx.yml\"))\n") ∧
    fixContent (sl ("\terr := os.WriteFile(\".ddx.yml\", data, 0644)\n")) =
      sl ("\terr := os.WriteFile(filepath.Join(workingDir, \".ddx.yml\"), data, 0644)\n") :=
  ⟨by decide, by decide, by decide⟩

/-- C2: each of the three path-qualification replacement templates ends
with a closing parenthesis, and rewriting the complete calls yields the
fully parenthesized filepath.Join forms with balanced parentheses. -/
theorem spec_C2 :
    rep3a.getLast? = some ')' ∧ rep3b.getLast? = some ')' ∧ rep3c.getLast? = some ')' ∧
    fixContent (sl ("assert.FileExists(t, \".ddx.yml\")")) =
      sl ("assert.FileExists(t, filepath.Join(workingDir, \".ddx.yml\"))") ∧
    fixContent (sl ("os.WriteFile(\".ddx.yml\", data, 0644)")) =
      sl ("os.WriteFile(filepath.Join(workingDir, \".ddx.yml\"), data, 0644)") ∧
    fixContent (sl ("os.ReadFile(\".ddx.yml\")")) =
      sl ("os.ReadFile(filepath.Join(workingDir, \".ddx.yml\"))") ∧
    (fixContent (sl ("os.ReadFile(\".ddx.yml\")"))).count '(' =
      (fixContent (sl ("os.ReadFile(\".ddx.yml\")"))).count ')' :=
  ⟨by decide, by decide, by decide, by decide, by decide, by decide, by decide⟩

/-- C3: for every snippet consisting of the four boilerplate lines with
indentation ind, with or without the Save-and-restore comment line
before them and with or without a Given comment line with non-newline
content between the defer line and the TempDir line, the
boilerplate-collapse rule replaces the whole block by the captured
indentation followed by the WithIsolatedDirectory header, preserving
the indentation exactly, and the output contains no closing brace. -/
theorem spec_C3 (ind gc : List Char) (b1 b2 : Bool) (hne : ind ≠ [])
    (hws : ∀ c ∈ ind, isWs c = true) (hgc : ∀ c ∈ gc, (c == '\n') = false) :
    sub1 (snippet ind b1 b2 gc) = ind ++ widLit ∧
      '\x7d' ∉ sub1 (snippet ind b1 b2 gc) := by
  have hs := sub1_snippet ind gc b1 b2 hne hws hgc
  refine ⟨hs, ?_⟩
  rw [hs]
  intro hmem
  rcases List.mem_append.mp hmem with h | h
  · exact absurd (hws _ h) (by decide)
  · exact absurd h (by decide)

theorem spec_C3_witness :
    sub1 (snippet (sl ("\t")) true true (sl ("setup files"))) = sl ("\t") ++ widLit ∧
      '\x7d' ∉ sub1 (snippet (sl ("\t")) true true (sl ("setup files"))) :=
  spec_C3 (sl ("\t")) (sl ("setup files")) true true (by decide) (by decide) (by decide)

/-- C4: an input containing none of the trigger shapes (no position at
which pattern 1 matches, no occurrence of the rename trigger, and none
of the three path-literal call shapes) is returned unchanged with the
changed flag false. -/
theorem spec_C4 (cs : List Char)
    (h1 : ∀ s ∈ cs.tails, matchP1At s = none)
    (h2 : hasSubstr pat2 cs = false) (h3 : hasSubstr pat3a cs = false)
    (h4 : hasSubstr pat3b cs = false) (h5 : hasSubstr pat3c cs = false) :
    rewrite cs = (cs, false) := by
  apply rewrite_eq_self
  unfold fixContent
  rw [sub1_id_of_no_match h1]
  exact replChain_id h2 h3 h4 h5

theorem spec_C4_witness :
    rewrite (sl ("package cmd\n\nfunc TestHelp(t *testing.T) \x7b\n\tcmd := exec.Command(\"ddx\")\n\x7d\n")) =
      (sl ("package cmd\n\nfunc TestHelp(t *testing.T) \x7b\n\tcmd := exec.Command(\"ddx\")\n\x7d\n"), false) :=
  spec_C4 _ (by decide) (by decide) (by decide) (by decide) (by decide)

/-- C5: the call-rename rule is applied to the whole text regardless of
whether the boilerplate rule matched: when pattern 1 matches nowhere,
the chain still equals the literal-replacement chain applied to the
original text, and a concrete boilerplate-free input containing two
occurrences of getFreshRootCmd() is still changed, both occurrences
being renamed to GetCommandInDirectory(workingDir). -/
theorem spec_C5 :
    (∀ cs : List Char, (∀ s ∈ cs.tails, matchP1At s = none) →
      fixContent cs = replaceAll pat3c rep3c (replaceAll pat3b rep3b
        (replaceAll pat3a rep3a (replaceAll pat2 rep2 cs)))) ∧
    rewrite (sl ("cmd := getFreshRootCmd()\nother := getFreshRootCmd()\n")) =
      (sl ("cmd := GetCommandInDirectory(workingDir)\nother := GetCommandInDirectory(workingDir)\n"),
        true) := by
  constructor
  · intro cs h
    unfold fixContent
    rw [sub1_id_of_no_match h]
  · decide

theorem spec_C5_witness :
    fixContent (sl ("x := getFreshRootCmd()\n")) =
      replaceAll pat3c rep3c (replaceAll pat3b rep3b (replaceAll pat3a rep3a
        (replaceAll pat2 rep2 (sl ("x := getFreshRootCmd()\n"))))) :=
  spec_C5.1 _ (by decide)

/-- C6: applying rewrite to the P2 boilerplate snippet collapses it to
the indented WithIsolatedDirectory header with the changed flag true;
applying rewrite a second time to that output makes no further change,
because the collapsed form no longer contains the four-statement idiom
and contains no other trigger, so the changed flag is false on the
second pass. -/
theorem spec_C6 (ind gc : List Char) (b1 b2 : Bool) (hne : ind ≠ [])
    (hws : ∀ c ∈ ind, isWs c = true) (hgc : ∀ c ∈ gc, (c == '\n') = false) :
    rewrite (snippet ind b1 b2 gc) = (ind ++ widLit, true) ∧
      rewrite (ind ++ widLit) = (ind ++ widLit, false) :=
  ⟨rewrite_eq_changed (fixContent_snippet ind gc b1 b2 hne hws hgc)
      (out_ne_snippet ind gc b1 b2),
    rewrite_eq_self (fixContent_out_id hws)⟩

theorem spec_C6_witness :
    rewrite (snippet (sl ("    ")) false false []) = (sl ("    ") ++ widLit, true) ∧
      rewrite (sl ("    ") ++ widLit) = (sl ("    ") ++ widLit, false) :=
  spec_C6 (sl ("    ")) [] false false (by decide) (by decide) (by decide)

/-- C9: the rule chain is total on its text input: rewrite always
returns the chained result together with the structural-inequality
flag, and each individual rule returns its input unchanged (zero
substitutions, a normal silent outcome rather than an error) whenever
its trigger shape is absent. -/
theorem spec_C9 (cs : List Char) :
    rewrite cs = (fixContent cs, fixContent cs != cs) ∧
      ((∀ s ∈ cs.tails, matchP1At s = none) → sub1 cs = cs) ∧
      (hasSubstr pat2 cs = false → replaceAll pat2 rep2 cs = cs) ∧
      (hasSubstr pat3a cs = false → replaceAll pat3a rep3a cs = cs) ∧
      (hasSubstr pat3b cs = false → replaceAll pat3b rep3b cs = cs) ∧
      (hasSubstr pat3c cs = false → replaceAll pat3c rep3c cs = cs) :=
  ⟨rfl, sub1_id_of_no_match,
    fun h => replaceAll_id_of_not_contains h, fun h => replaceAll_id_of_not_contains h,
    fun h => replaceAll_id_of_not_contains h, fun h => replaceAll_id_of_not_contains h⟩

theorem spec_C9_witness :
    sub1 (sl ("no triggers here\n")) = sl ("no triggers here\n") ∧
      replaceAll pat2 rep2 (sl ("no triggers here\n")) = sl ("no triggers here\n") ∧
      replaceAll pat3a rep3a (sl ("no triggers here\n")) = sl ("no triggers here\n") ∧
      replaceAll pat3b rep3b (sl ("no triggers here\n")) = sl ("no triggers here\n") ∧
      replaceAll pat3c rep3c (sl ("no triggers here\n")) = sl ("no triggers here\n") :=
  ⟨(spec_C9 _).2.1 (by decide), (spec_C9 _).2.2.1 (by decide),
    (spec_C9 _).2.2.2.1 (by decide), (spec_C9 _).2.2.2.2.1 (by decide),
    (spec_C9 _).2.2.2.2.2 (by decide)⟩

/-- C10: every successful pattern-1 match begins with a whitespace
character (the captured indentation group requires at least one), so an
occurrence of the four-statement idiom at the very start of the text
with no preceding whitespace is never the start of a match; on the
concrete text consisting of exactly that bare idiom, the
boilerplate-collapse rule leaves the text unchanged. -/
theorem spec_C10 :
    (∀ cs ind rest : List Char, matchP1At cs = some (ind, rest) →
      ∃ c t, cs = c :: t ∧ isWs c = true) ∧
    sub1 (sl ("origDir, _ := os.Getwd()\n\tdefer os.Chdir(origDir)\n\ttempDir := t.TempDir()\n\tos.Chdir(tempDir)")) =
      sl ("origDir, _ := os.Getwd()\n\tdefer os.Chdir(origDir)\n\ttempDir := t.TempDir()\n\tos.Chdir(tempDir)") := by
  constructor
  · intro cs ind rest h
    exact (matchP1At_some h).2.2.2
  · decide

theorem spec_C10_witness :
    ∃ c t, sl ("\torigDir, _ := os.Getwd()\n\tdefer os.Chdir(origDir)\n\ttempDir := t.TempDir()\n\tos.Chdir(tempDir)") =
      c :: t ∧ isWs c = true :=
  spec_C10.1 _ (sl ("\t")) [] (by decide)

/- ---------------------------------------------------------------
File-system lemmas for C7 and C8.
--------------------------------------------------------------- -/

theorem fsRead_write_self (fs : Dir) (n : FName) (c : List Char) :
    fsRead (fsWrite fs n c) n = some c := by
  induction fs with
  | nil => simp [fsWrite, fsRead]
  | cons e t ih =>
    by_cases h : e.1 = n
    · simp [fsWrite, h, fsRead]
    · simp [fsWrite, h, fsRead, ih]

theorem fsRead_write_ne (fs : Dir) (n m : FName) (c : List Char) (h : m ≠ n) :
    fsRead (fsWrite fs m c) n = fsRead fs n := by
  induction fs with
  | nil => simp [fsWrite, fsRead, h]
  | cons e t ih =>
    by_cases he : e.1 = m
    · simp [fsWrite, he, fsRead, h]
    · simp [fsWrite, he, fsRead, ih]

theorem fsRead_write_isSome (fs : Dir) (n m : FName) (c : List Char)
    (h : (fsRead fs n).isSome = true) : (fsRead (fsWrite fs m c) n).isSome = true := by
  by_cases hnm : m = n
  · subst hnm
    rw [fsRead_write_self]
    rfl
  · rw [fsRead_write_ne fs n m c hnm]
    exact h

theorem fix_test_file_unchanged {fs : Dir} {p : FName} {content : List Char}
    (h : fsRead fs p = some content) (he : fixContent content = content) :
    fix_test_file fs p = some (fs, false) := by
  simp [fix_test_file, h, he]

theorem fix_test_file_changed {fs : Dir} {p : FName} {content : List Char}
    (h : fsRead fs p = some content) (he : fixContent content ≠ content) :
    fix_test_file fs p =
      some (fsWrite (fsWrite fs (p ++ backupSuffix) content) p (fixContent content), true) := by
  simp [fix_test_file, h, he]

theorem fix_test_file_preserves {fs fs1 : Dir} {p n : FName} {b : Bool}
    (h : fix_test_file fs p = some (fs1, b)) (hn : (fsRead fs n).isSome = true) :
    (fsRead fs1 n).isSome = true := by
  unfold fix_test_file at h
  cases hr : fsRead fs p with
  | none =>
    rw [hr] at h
    cases h
  | some content =>
    rw [hr] at h
    dsimp only at h
    by_cases he : fixContent content = content
    · rw [if_pos he] at h
      simp only [Option.some.injEq, Prod.mk.injEq] at h
      rw [← h.1]
      exact hn
    · rw [if_neg he] at h
      simp only [Option.some.injEq, Prod.mk.injEq] at h
      rw [← h.1]
      exact fsRead_write_isSome _ _ _ _ (fsRead_write_isSome _ _ _ _ hn)

theorem fix_test_file_isSome {fs : Dir} {p : FName} (h : (fsRead fs p).isSome = true) :
    (fix_test_file fs p).isSome = true := by
  unfold fix_test_file
  cases hr : fsRead fs p with
  | none =>
    rw [hr] at h
    cases h
  | some content =>
    by_cases he : fixContent content = content <;> simp [he]

theorem read_isSome_of_mem_fst {fs : Dir} {n : FName} (h : n ∈ fs.map Prod.fst) :
    (fsRead fs n).isSome = true := by
  induction fs with
  | nil => simp at h
  | cons e t ih =>
    by_cases he : e.1 = n
    · simp [fsRead, he]
    · have hm : n ∈ t.map Prod.fst := by
        simp only [List.map_cons, List.mem_cons] at h
        rcases h with h | h
        · exact absurd h.symm he
        · exact h
      simp [fsRead, he, ih hm]

theorem processFiles_isSome {names : List FName} : ∀ {fs : Dir},
    (∀ n ∈ names, (fsRead fs n).isSome = true) →
    (processFiles fs names).isSome = true := by
  induction names with
  | nil =>
    intro fs h
    rfl
  | cons n rest ih =>
    intro fs h
    have h1 := fix_test_file_isSome (h n (by simp))
    unfold processFiles
    cases hf : fix_test_file fs n with
    | none =>
      rw [hf] at h1
      cases h1
    | some q =>
      obtain ⟨fs1, b⟩ := q
      have h2 : ∀ m ∈ rest, (fsRead fs1 m).isSome = true :=
        fun m hm => fix_test_file_preserves hf (h m (by simp [hm]))
      have h3 := ih h2
      cases hp : processFiles fs1 rest with
      | none =>
        rw [hp] at h3
        cases h3
      | some q2 => simp [hp]

/-- C7: a backup (the original name plus the backup suffix, holding the
original content) is written exactly when the rule chain changed the
text: an unchanged file leaves the directory untouched with result
false, a changed file first writes the backup with the original
content and then overwrites the file; and processing a directory with
one changing file and one unchanged file produces exit code 0, a
summary count of one, and exactly one backup artifact. -/
theorem spec_C7 :
    (∀ (fs : Dir) (p : FName) (content : List Char), fsRead fs p = some content →
      (fixContent content = content → fix_test_file fs p = some (fs, false)) ∧
      (fixContent content ≠ content →
        fix_test_file fs p =
          some (fsWrite (fsWrite fs (p ++ backupSuffix) content) p (fixContent content), true) ∧
        fsRead (fsWrite (fsWrite fs (p ++ backupSuffix) content) p (fixContent content))
          (p ++ backupSuffix) = some content)) ∧
    (mainRun (some [(sl ("a_test.go"), sl ("x := getFreshRootCmd()\n")),
        (sl ("b_test.go"), sl ("package cmd\n"))])).2 = 0 ∧
    ((mainRun (some [(sl ("a_test.go"), sl ("x := getFreshRootCmd()\n")),
        (sl ("b_test.go"), sl ("package cmd\n"))])).1.map Prod.snd) = some 1 ∧
    ((mainRun (some [(sl ("a_test.go"), sl ("x := getFreshRootCmd()\n")),
        (sl ("b_test.go"), sl ("package cmd\n"))])).1.map fun q => countBackups q.1) = some 1 := by
  refine ⟨?_, by decide, by decide, by decide⟩
  intro fs p content h
  constructor
  · intro he
    exact fix_test_file_unchanged h he
  · intro he
    refine ⟨fix_test_file_changed h he, ?_⟩
    have hb : p ≠ p ++ backupSuffix := by
      intro hh
      have hlen := congrArg List.length hh
      rw [List.length_append] at hlen
      rw [show backupSuffix.length = 7 from rfl] at hlen
      omega
    rw [fsRead_write_ne _ _ _ _ hb]
    exact fsRead_write_self _ _ _

theorem spec_C7_witness :
    fix_test_file [(sl ("a_test.go"), sl ("package cmd\n"))] (sl ("a_test.go")) =
      some ([(sl ("a_test.go"), sl ("package cmd\n"))], false) :=
  ((spec_C7.1 [(sl ("a_test.go"), sl ("package cmd\n"))] (sl ("a_test.go"))
    (sl ("package cmd\n")) (by decide)).1 (by decide))

/-- C8: the run exits with the distinct failure code 1 when the target
directory is missing, having touched nothing; when the directory
exists the run processes every listed name ending in the test suffix
and exits 0, regardless of how many files were changed. -/
theorem spec_C8 :
    mainRun none = (none, 1) ∧ ∀ fs : Dir, (mainRun (some fs)).2 = 0 := by
  refine ⟨rfl, ?_⟩
  intro fs
  have h : ∀ n ∈ (fs.map Prod.fst).filter (fun n => testSuffix.isSuffixOf n),
      (fsRead fs n).isSome = true := by
    intro n hn
    exact read_isSome_of_mem_fst (List.mem_of_mem_filter hn)
  have h2 := processFiles_isSome h
  unfold mainRun
  cases hp : processFiles fs ((fs.map Prod.fst).filter fun n => testSuffix.isSuffixOf n) with
  | none =>
    rw [hp] at h2
    cases h2
  | some q =>
    obtain ⟨fs1, k⟩ := q
    simp [hp]

